import Mathlib

/-!
# Portfolio analytics engine — verification development

Shallow embedding of the dashboard analytics computation of the
wealth-tracking mobile client (the `analytics` `useMemo` block of
`src/app/(tabs)/index.tsx`), together with the data shapes it consumes
(`AssetWithPrice`, `PortfolioValue` from `src/services/prices.ts`).

Modelling conventions:

* JavaScript numbers are modelled by exact values (rationals where only
  field operations occur, reals where `Math.sqrt` enters); floating-point
  rounding is not modelled.  The IEEE special values `NaN`, `+∞`, `-∞`,
  which are reachable through the division `max / totalValue` when
  `totalValue = 0`, are modelled explicitly by the `JSNum` wrapper.
  Rationals and reals have a single zero, so the IEEE signed zero is not
  modelled (it is unreachable from the inputs considered here).
* `Array.prototype.sort` (ECMAScript 2019+) is a stable sort; with the
  comparator `(a, b) => b.gainLossPercent - a.gainLossPercent` it is a
  stable sort by `gainLossPercent` descending, modelled by
  `List.mergeSort` with the total transitive relation
  `le a b := b.gainLossPercent ≤ a.gainLossPercent`.
* A JavaScript object used as a dictionary (`Record<string, number>`) is
  modelled by an association list in insertion order: assigning to a
  present key updates it in place, assigning to an absent key appends.
-/

/-- A JavaScript number that may be one of the IEEE special values.
`fin x` is an ordinary (finite) number with exact value `x`. -/
inductive JSNum (α : Type) where
  | fin (x : α)
  | posInf
  | negInf
  | nan
deriving Repr, DecidableEq

namespace JSNum

variable {α β : Type} [LinearOrderedField α]

/-- Transport the finite payload (used to pass an exact rational JS value
into a computation that also involves `Math.sqrt`, hence real payloads). -/
def map (f : α → β) : JSNum α → JSNum β
  | fin x => fin (f x)
  | posInf => posInf
  | negInf => negInf
  | nan => nan

/-- JavaScript `+` on numbers: `NaN` propagates, `+∞ + -∞ = NaN`. -/
def add : JSNum α → JSNum α → JSNum α
  | nan, _ => nan
  | _, nan => nan
  | posInf, negInf => nan
  | negInf, posInf => nan
  | posInf, _ => posInf
  | _, posInf => posInf
  | negInf, _ => negInf
  | _, negInf => negInf
  | fin a, fin b => fin (a + b)

/-- JavaScript `-` on numbers. -/
def sub : JSNum α → JSNum α → JSNum α
  | nan, _ => nan
  | _, nan => nan
  | posInf, posInf => nan
  | negInf, negInf => nan
  | posInf, _ => posInf
  | _, negInf => posInf
  | negInf, _ => negInf
  | _, posInf => negInf
  | fin a, fin b => fin (a - b)

/-- JavaScript `*` on numbers: `NaN` propagates, `±∞ * 0 = NaN`,
otherwise infinities follow the sign rules. -/
def mul : JSNum α → JSNum α → JSNum α
  | nan, _ => nan
  | _, nan => nan
  | posInf, posInf => posInf
  | posInf, negInf => negInf
  | negInf, posInf => negInf
  | negInf, negInf => posInf
  | posInf, fin b => if 0 < b then posInf else if b < 0 then negInf else nan
  | fin a, posInf => if 0 < a then posInf else if a < 0 then negInf else nan
  | negInf, fin b => if 0 < b then negInf else if b < 0 then posInf else nan
  | fin a, negInf => if 0 < a then negInf else if a < 0 then posInf else nan
  | fin a, fin b => fin (a * b)

/-- JavaScript `/` on numbers.  Division never throws: a nonzero finite
number divided by zero gives a signed infinity, and `0 / 0 = NaN`. -/
def div : JSNum α → JSNum α → JSNum α
  | nan, _ => nan
  | _, nan => nan
  | posInf, posInf => nan
  | posInf, negInf => nan
  | negInf, posInf => nan
  | negInf, negInf => nan
  | posInf, fin b => if 0 ≤ b then posInf else negInf
  | negInf, fin b => if 0 ≤ b then negInf else posInf
  | fin _, posInf => fin 0
  | fin _, negInf => fin 0
  | fin a, fin b =>
      if b = 0 then
        if 0 < a then posInf else if a < 0 then negInf else nan
      else fin (a / b)

/-- JavaScript `Math.min` on two numbers: `NaN` if either argument is
`NaN`, otherwise the smaller with `-∞ < finite < +∞`. -/
def minJS : JSNum α → JSNum α → JSNum α
  | nan, _ => nan
  | _, nan => nan
  | negInf, _ => negInf
  | _, negInf => negInf
  | posInf, b => b
  | a, posInf => a
  | fin a, fin b => fin (min a b)

end JSNum

/-- One priced holding of a portfolio snapshot
(`AssetWithPrice` in `src/services/prices.ts`). -/
structure AssetWithPrice where
  id : String
  symbol : String
  name : String
  type : String
  quantity : ℚ
  purchasePrice : ℚ
  currentPrice : ℚ
  cost : ℚ
  currentValue : ℚ
  gainLoss : ℚ
  gainLossPercent : ℚ
  lastPriceUpdate : Option String
  priceSource : String
deriving Repr, DecidableEq

/-- A portfolio snapshot (`PortfolioValue` in `src/services/prices.ts`):
backend-supplied aggregates plus the list of priced holdings, in the
order the backend returned them. -/
structure PortfolioValue where
  totalValue : ℚ
  totalCost : ℚ
  totalGainLoss : ℚ
  totalGainLossPercent : ℚ
  assets : List AssetWithPrice
deriving Repr, DecidableEq

/-- The descending-by-`gainLossPercent` relation used by the sort
comparator `(a, b) => b.gainLossPercent - a.gainLossPercent`. -/
def glpGE (a b : AssetWithPrice) : Bool :=
  decide (b.gainLossPercent ≤ a.gainLossPercent)

/-- `[...assets].sort((a, b) => b.gainLossPercent - a.gainLossPercent)`:
a stable sort by `gainLossPercent` descending. -/
def sortedByGLP (assets : List AssetWithPrice) : List AssetWithPrice :=
  assets.mergeSort glpGE

/-- `assets.reduce((sum, a) => sum + a.gainLossPercent, 0) / assets.length`. -/
def avgReturn (assets : List AssetWithPrice) : ℚ :=
  (assets.foldl (fun sum a => sum + a.gainLossPercent) 0) / assets.length

/-- `assets.reduce((sum, a) => sum + Math.pow(a.gainLossPercent - avgReturn, 2), 0)
/ assets.length`. -/
def variance (assets : List AssetWithPrice) : ℚ :=
  (assets.foldl (fun sum a => sum + (a.gainLossPercent - avgReturn assets) ^ 2) 0)
    / assets.length

/-- `Math.sqrt(variance)`.  The argument is a finite rational and is
provably nonnegative (`variance_nonneg`), so the JS value is the exact
nonnegative square root, a finite real. -/
noncomputable def volatility (assets : List AssetWithPrice) : ℝ :=
  Real.sqrt (variance assets)

/-- `m[k] || 0`: reading an absent key gives `undefined`, which `|| 0`
turns into `0`; a stored `0` is falsy and also yields `0`, the same
value. -/
def recordGetD (m : List (String × ℚ)) (k : String) : ℚ :=
  ((m.lookup k).getD 0)

/-- `m[k] = v` on a JS object: updates the key in place when present,
appends it when absent. -/
def recordSet (m : List (String × ℚ)) (k : String) (v : ℚ) : List (String × ℚ) :=
  if m.any (fun e => e.1 = k) then
    m.map (fun e => if e.1 = k then (k, v) else e)
  else m ++ [(k, v)]

/-- `assets.forEach(a => { td[a.type] = (td[a.type] || 0) + a.currentValue })`
starting from the empty object. -/
def typeDistribution (assets : List AssetWithPrice) : List (String × ℚ) :=
  assets.foldl (fun m a => recordSet m a.type (recordGetD m a.type + a.currentValue)) []

/-- `Math.max(...values)`.  Only applied to a nonempty list (the guard in
`analytics` rules out the empty snapshot); on `[]` JS would give `-∞`,
which we do not model since it is unreachable. -/
def mathMax : List ℚ → ℚ
  | [] => 0
  | x :: xs => xs.foldl max x

/-- `Math.max(...Object.values(typeDistribution)) / totalValue`, with the
JS division semantics (a zero `totalValue` gives `NaN` or `±∞`, never an
exception). -/
def concentration (p : PortfolioValue) : JSNum ℚ :=
  JSNum.div (.fin (mathMax ((typeDistribution p.assets).map Prod.snd)))
    (.fin p.totalValue)

/-- `Math.min(100, (volatility * 5) + (concentration * 50))`, in JS number
semantics; the rational concentration is transported to a real payload
because `volatility` involves `Math.sqrt`. -/
noncomputable def riskScore (p : PortfolioValue) : JSNum ℝ :=
  JSNum.minJS (.fin 100)
    (JSNum.add (JSNum.mul (.fin (volatility p.assets)) (.fin 5))
      (JSNum.mul ((concentration p).map (fun q : ℚ => (q : ℝ))) (.fin 50)))

/-- `Object.keys(typeDistribution).length`. -/
def numTypes (p : PortfolioValue) : ℕ :=
  (typeDistribution p.assets).length

/-- `Math.min(100, (numTypes * 20) + ((1 - concentration) * 30))`, in JS
number semantics. -/
noncomputable def diversificationScore (p : PortfolioValue) : JSNum ℝ :=
  JSNum.minJS (.fin 100)
    (JSNum.add (JSNum.mul (.fin (numTypes p)) (.fin 20))
      (JSNum.mul (JSNum.sub (.fin 1) ((concentration p).map (fun q : ℚ => (q : ℝ))))
        (.fin 30)))

/-- The record returned by the `analytics` `useMemo` block. -/
structure AnalyticsResult where
  topPerformer : Option AssetWithPrice
  worstPerformer : Option AssetWithPrice
  avgReturn : ℚ
  volatility : ℝ
  typeDistribution : List (String × ℚ)
  riskScore : JSNum ℝ
  diversificationScore : JSNum ℝ
  totalAssets : ℕ
  totalGainers : ℕ
  totalLosers : ℕ

/-- The early-return value for an absent or empty snapshot. -/
def emptyAnalytics : AnalyticsResult :=
  { topPerformer := none
    worstPerformer := none
    avgReturn := 0
    volatility := 0
    typeDistribution := []
    riskScore := .fin 0
    diversificationScore := .fin 0
    totalAssets := 0
    totalGainers := 0
    totalLosers := 0 }

/-- The dashboard analytics computation (`src/app/(tabs)/index.tsx`,
the `analytics` `useMemo` block).  The `!portfolioData` half of the
guard is the caller's null state before the first fetch; the engine
itself is modelled from a present snapshot, so only the
`assets.length === 0` half remains. -/
noncomputable def analytics (p : PortfolioValue) : AnalyticsResult :=
  if p.assets = [] then emptyAnalytics
  else
    { topPerformer := (sortedByGLP p.assets).head?
      worstPerformer := (sortedByGLP p.assets).getLast?
      avgReturn := avgReturn p.assets
      volatility := volatility p.assets
      typeDistribution := typeDistribution p.assets
      riskScore := riskScore p
      diversificationScore := diversificationScore p
      totalAssets := p.assets.length
      totalGainers := (p.assets.filter (fun a => decide (0 < a.gainLoss))).length
      totalLosers := (p.assets.filter (fun a => decide (a.gainLoss < 0))).length }

/-!
## Array-store model

To state the frame property (the computation never mutates the caller's
assets array) and re-entrancy, the two JS arrays in play are given
explicit identities in a store: the caller's array (`callerId`) and the
fresh array allocated by the spread `[...portfolioData.assets]`
(`copyId`).  `.sort` mutates in place the array it is called on, which
in the source is the fresh copy. -/

/-- Identity of a JS array in the store. -/
def ArrayId : Type := ℕ
deriving DecidableEq

/-- A store mapping array identities to contents. -/
def Store : Type := ArrayId → List AssetWithPrice

/-- In-place mutation of the array `i`. -/
def Store.write (σ : Store) (i : ArrayId) (v : List AssetWithPrice) : Store :=
  fun j => if j = i then v else σ j

/-- The caller's `portfolioData.assets` array. -/
def callerId : ArrayId := (0 : ℕ)

/-- The fresh array built by the spread `[...portfolioData.assets]`. -/
def copyId : ArrayId := (1 : ℕ)

/-- The analytics computation with the two arrays held in an explicit
store: the spread allocates `copyId` with the contents of `callerId`,
`.sort` then mutates `copyId` in place, and every other step only reads.
Returns the result together with the final store. -/
noncomputable def analyticsRun (p : PortfolioValue) : AnalyticsResult × Store :=
  let σ0 : Store := fun j => if j = callerId then p.assets else []
  let σ1 : Store := σ0.write copyId (σ0 callerId)
  let σ2 : Store := σ1.write copyId ((σ1 copyId).mergeSort glpGE)
  (analytics { p with assets := σ2 callerId }, σ2)

/-- Two successive invocations: the second one runs on whatever the
first one left in the caller's array. -/
noncomputable def analyticsTwice (p : PortfolioValue) :
    AnalyticsResult × AnalyticsResult :=
  let first := analyticsRun p
  let second := analyticsRun { p with assets := first.2 callerId }
  (first.1, second.1)

/-!
## Mathematical companions and concrete inputs
-/

/-- The summed `currentValue` of the holdings of type `k` (the value the
spec assigns to `typeDistribution[k]`). -/
def sumType (k : String) (l : List AssetWithPrice) : ℚ :=
  ((l.filter (fun a => a.type = k)).map (fun a => a.currentValue)).sum

/-- A holding with the fields the analytics block reads; the display-only
fields are filled with neutral values. -/
def mkAsset (ty : String) (cv gl glp : ℚ) : AssetWithPrice :=
  { id := ""
    symbol := ""
    name := ""
    type := ty
    quantity := 0
    purchasePrice := 0
    currentPrice := 0
    cost := 0
    currentValue := cv
    gainLoss := gl
    gainLossPercent := glp
    lastPriceUpdate := none
    priceSource := "" }

/-- A snapshot wrapping a list of holdings with the given `totalValue`. -/
def mkSnap (tv : ℚ) (l : List AssetWithPrice) : PortfolioValue :=
  { totalValue := tv
    totalCost := 0
    totalGainLoss := 0
    totalGainLossPercent := 0
    assets := l }

/-- A valid degenerate snapshot: one worthless holding, `totalValue = 0`
(equal to the sum of the current values, as the backend invariant
requires). -/
def zeroValueSnap : PortfolioValue :=
  mkSnap 0 [mkAsset "STOCK" 0 0 0]

/-- A second copy of the degenerate snapshot, used by a different claim. -/
def zeroValueSnap' : PortfolioValue :=
  mkSnap 0 [mkAsset "CRYPTO" 0 0 0]

/-- Two holdings tied on `gainLossPercent`, in snapshot order. -/
def tieA : AssetWithPrice := mkAsset "STOCK" 60 1 (5 : ℚ)

def tieB : AssetWithPrice := mkAsset "CRYPTO" 40 2 (5 : ℚ)

/-- A snapshot whose two holdings are tied on `gainLossPercent`. -/
def tieSnap : PortfolioValue := mkSnap 100 [tieA, tieB]

/-- A snapshot with one holding whose `currentValue` is `0`. -/
def zeroTypeSnap : PortfolioValue :=
  mkSnap 10 [mkAsset "BOND" 0 0 0, mkAsset "ETF" 10 1 2]

/-- The empty snapshot. -/
def emptySnap : PortfolioValue := mkSnap 0 []

/-- Witness snapshot for the performer claim: three distinct returns. -/
def snapC2 : PortfolioValue :=
  mkSnap 100 [mkAsset "STOCK" 50 5 10, mkAsset "CRYPTO" 30 (-3) (-10),
    mkAsset "ETF" 20 4 20]

/-- Witness snapshot for the mean/volatility claim (the spec's own
example returns 10, −10, 20). -/
def snapC5 : PortfolioValue :=
  mkSnap 100 [mkAsset "STOCK" 50 5 10, mkAsset "CRYPTO" 30 (-3) (-10),
    mkAsset "ETF" 20 4 20]

/-- Witness snapshot for the risk-score claim: one holding owning the
whole portfolio value. -/
def snapC6 : PortfolioValue := mkSnap 50 [mkAsset "STOCK" 50 5 10]

/-- Witness snapshot for the diversification-score claim. -/
def snapC7 : PortfolioValue := mkSnap 50 [mkAsset "STOCK" 50 5 10]

/-- Witness snapshot for the type-distribution claim. -/
def snapC3 : PortfolioValue :=
  mkSnap 10 [mkAsset "BOND" 0 0 0, mkAsset "ETF" 10 1 2]

/-!
## Basic lemmas
-/

/-- The source's `reduce`-with-`+` pattern is the sum of the mapped list. -/
theorem foldl_add_eq_sum (f : AssetWithPrice → ℚ) (l : List AssetWithPrice) (c : ℚ) :
    l.foldl (fun sum a => sum + f a) c = c + (l.map f).sum := by
  induction l generalizing c with
  | nil => simp
  | cons a t ih => simp [ih, add_assoc]

/-- `avgReturn` is the arithmetic mean of `gainLossPercent`. -/
theorem avgReturn_eq_mean (l : List AssetWithPrice) :
    avgReturn l = (l.map (fun a => a.gainLossPercent)).sum / l.length := by
  simp [avgReturn, foldl_add_eq_sum]

/-- `variance` is the mean of the squared deviations from `avgReturn`. -/
theorem variance_eq_mean_sq (l : List AssetWithPrice) :
    variance l =
      (l.map (fun a => (a.gainLossPercent - avgReturn l) ^ 2)).sum / l.length := by
  simp [variance, foldl_add_eq_sum]

/-- The variance is nonnegative, so `Math.sqrt` never sees a negative
argument and `volatility` is an ordinary finite number. -/
theorem variance_nonneg (l : List AssetWithPrice) : 0 ≤ variance l := by
  rw [variance_eq_mean_sq]
  apply div_nonneg
  · exact List.sum_nonneg (by intro x hx; simp at hx; obtain ⟨a, _, rfl⟩ := hx; positivity)
  · positivity

theorem volatility_nonneg (l : List AssetWithPrice) : 0 ≤ volatility l :=
  Real.sqrt_nonneg _

theorem volatility_sq (l : List AssetWithPrice) :
    (volatility l) ^ 2 = (variance l : ℝ) :=
  Real.sq_sqrt (by exact_mod_cast variance_nonneg l)

/-- The run-with-store computation leaves the caller's array untouched:
the only mutation, the in-place sort, happens on the spread copy. -/
theorem run_preserves_caller (p : PortfolioValue) :
    (analyticsRun p).2 callerId = p.assets := by
  simp [analyticsRun, Store.write, callerId, copyId]

/-- The result of the store-threaded run is the pure function's value. -/
theorem run_fst_eq_analytics (p : PortfolioValue) :
    (analyticsRun p).1 = analytics p := by
  have : ((analyticsRun p).2) callerId = p.assets := run_preserves_caller p
  simp only [analyticsRun] at this ⊢
  rw [this]

/-- Exactly one of `0 < x`, `x < 0`, `x = 0` holds, so gainers, losers
and flat holdings partition the collection. -/
theorem countP_trichotomy (l : List AssetWithPrice) :
    l.countP (fun a => decide (0 < a.gainLoss)) +
      l.countP (fun a => decide (a.gainLoss < 0)) +
      l.countP (fun a => decide (a.gainLoss = 0)) = l.length := by
  induction l with
  | nil => simp
  | cons a t ih =>
      rcases lt_trichotomy a.gainLoss 0 with h | h | h
      · simp [List.countP_cons, h, not_lt_of_gt h, h.ne]
        omega
      · simp [List.countP_cons, h]
        omega
      · simp [List.countP_cons, h, not_lt_of_gt h, h.ne']
        omega

/-!
## The type-distribution object
-/


theorem lookup_mapUpd_self (k : String) (v : ℚ) :
    ∀ (m : List (String × ℚ)), (∃ e ∈ m, e.1 = k) →
      (m.map (fun e => if e.1 = k then (k, v) else e)).lookup k = some v := by
  intro m
  induction m with
  | nil => rintro ⟨e, he, _⟩; simp at he
  | cons e t ih =>
      rintro ⟨f, hf, hfk⟩
      by_cases he : e.1 = k
      · simp [List.map_cons, if_pos he]
      · obtain ⟨ke, ve⟩ := e
        have hb : (k == ke) = false := beq_eq_false_iff_ne.mpr fun h => he h.symm
        simp only [List.map_cons, if_neg he, List.lookup_cons, hb]
        rcases List.mem_cons.mp hf with rfl | hf'
        · exact absurd hfk he
        · exact ih ⟨f, hf', hfk⟩

theorem lookup_mapUpd_other (k k' : String) (v : ℚ) (hne : k' ≠ k) :
    ∀ (m : List (String × ℚ)),
      (m.map (fun e => if e.1 = k then (k, v) else e)).lookup k' = m.lookup k' := by
  intro m
  induction m with
  | nil => rfl
  | cons e t ih =>
      obtain ⟨ke, ve⟩ := e
      by_cases he : ke = k
      · subst he
        have hb : (k' == ke) = false := beq_eq_false_iff_ne.mpr hne
        simp [List.lookup_cons, hb, ih]
      · simp only [List.map_cons, if_neg he, List.lookup_cons]
        cases hkk : (k' == ke) <;> simp [hkk, ih]

theorem lookup_append_single_self (m : List (String × ℚ)) (k : String) (v : ℚ)
    (h : m.lookup k = none) : (m ++ [(k, v)]).lookup k = some v := by
  rw [List.lookup_append, h]
  simp

theorem lookup_append_single_other (m : List (String × ℚ)) (k k' : String) (v : ℚ)
    (hne : k' ≠ k) : (m ++ [(k, v)]).lookup k' = m.lookup k' := by
  rw [List.lookup_append]
  have h1 : ([(k, v)] : List (String × ℚ)).lookup k' = none := by
    simp [List.lookup_cons, beq_eq_false_iff_ne.mpr hne]
  rw [h1]
  cases m.lookup k' <;> rfl

theorem lookup_recordSet_self (m : List (String × ℚ)) (k : String) (v : ℚ) :
    (recordSet m k v).lookup k = some v := by
  unfold recordSet
  split
  · rename_i h
    exact lookup_mapUpd_self k v m (by simpa using h)
  · rename_i h
    apply lookup_append_single_self
    rw [List.lookup_eq_none_iff]
    have h' : ¬ ∃ e ∈ m, e.1 = k := by
      rintro ⟨e, he, hk⟩
      exact h (List.any_eq_true.mpr ⟨e, he, by simpa using hk⟩)
    intro p hp
    simp only [bne_iff_ne, ne_eq]
    exact fun hkp => h' ⟨p, hp, hkp.symm⟩

theorem lookup_recordSet_other (m : List (String × ℚ)) (k k' : String) (v : ℚ)
    (hne : k' ≠ k) : (recordSet m k v).lookup k' = m.lookup k' := by
  unfold recordSet
  split
  · exact lookup_mapUpd_other k k' v hne m
  · exact lookup_append_single_other m k k' v hne

theorem recordGetD_recordSet_self (m : List (String × ℚ)) (k : String) (v : ℚ) :
    recordGetD (recordSet m k v) k = v := by
  simp [recordGetD, lookup_recordSet_self]

theorem recordGetD_recordSet_other (m : List (String × ℚ)) (k k' : String) (v : ℚ)
    (hne : k' ≠ k) : recordGetD (recordSet m k v) k' = recordGetD m k' := by
  simp [recordGetD, lookup_recordSet_other m k k' v hne]

/-- If no holding of `l` has type `k`, the per-type sum over `l` is `0`. -/
theorem sumType_eq_zero {k : String} {l : List AssetWithPrice}
    (h : ¬ ∃ a ∈ l, a.type = k) : sumType k l = 0 := by
  unfold sumType
  have h1 : l.filter (fun a => a.type = k) = [] := by
    rw [List.filter_eq_nil_iff]
    intro a ha
    simp only [decide_eq_true_eq]
    exact fun hk => h ⟨a, ha, hk⟩
  rw [h1]
  simp

theorem sumType_cons_self {k : String} {a : AssetWithPrice} {t : List AssetWithPrice}
    (h : a.type = k) : sumType k (a :: t) = a.currentValue + sumType k t := by
  simp [sumType, List.filter_cons, h]

theorem sumType_cons_other {k : String} {a : AssetWithPrice} {t : List AssetWithPrice}
    (h : ¬ a.type = k) : sumType k (a :: t) = sumType k t := by
  simp [sumType, List.filter_cons, h]

/-- Invariant of the `forEach` loop that builds the distribution object:
a key present in the accumulator or occurring in the remaining holdings
ends up bound to its accumulated value plus the per-type sum; any other
key keeps its binding. -/
theorem typeDist_foldl_lookup (l : List AssetWithPrice) (m : List (String × ℚ))
    (k : String) :
    ((l.foldl (fun m a => recordSet m a.type (recordGetD m a.type + a.currentValue))
        m).lookup k) =
      if ∃ a ∈ l, a.type = k then some (recordGetD m k + sumType k l)
      else m.lookup k := by
  induction l generalizing m with
  | nil => simp
  | cons a t ih =>
      simp only [List.foldl_cons]
      rw [ih]
      by_cases ha : a.type = k
      · subst ha
        have hl : ∃ x ∈ a :: t, x.type = a.type := ⟨a, List.mem_cons_self a t, rfl⟩
        rw [if_pos hl]
        by_cases ht : ∃ x ∈ t, x.type = a.type
        · rw [if_pos ht, recordGetD_recordSet_self, sumType_cons_self rfl]
          ring_nf
        · rw [if_neg ht, lookup_recordSet_self, sumType_cons_self rfl,
            sumType_eq_zero ht]
          ring_nf
      · have hg : recordGetD (recordSet m a.type (recordGetD m a.type + a.currentValue)) k
            = recordGetD m k :=
          recordGetD_recordSet_other m a.type k _ (Ne.symm ha)
        have hlk : (recordSet m a.type (recordGetD m a.type + a.currentValue)).lookup k
            = m.lookup k :=
          lookup_recordSet_other m a.type k _ (Ne.symm ha)
        have hl : (∃ x ∈ a :: t, x.type = k) ↔ ∃ x ∈ t, x.type = k := by
          constructor
          · rintro ⟨x, hx, hxty⟩
            rcases List.mem_cons.mp hx with rfl | hx'
            · exact absurd hxty ha
            · exact ⟨x, hx', hxty⟩
          · rintro ⟨x, hx, hxty⟩
            exact ⟨x, List.mem_cons_of_mem a hx, hxty⟩
        by_cases ht : ∃ x ∈ t, x.type = k
        · rw [if_pos ht, if_pos (hl.mpr ht), hg, sumType_cons_other ha]
        · rw [if_neg ht, if_neg (fun hx => ht (hl.mp hx)), hlk]

/-- The distribution object binds exactly the asset types occurring among
the holdings, each to its summed `currentValue` — including a sum of `0`. -/
theorem typeDistribution_lookup (l : List AssetWithPrice) (k : String) :
    (typeDistribution l).lookup k =
      if ∃ a ∈ l, a.type = k then some (sumType k l) else none := by
  have h := typeDist_foldl_lookup l [] k
  simpa [typeDistribution, recordGetD] using h

/-- `recordSet` preserves the key set except for possibly appending the
new key, so it keeps the keys duplicate-free — as a JS object's keys are. -/
theorem nodup_keys_recordSet (m : List (String × ℚ)) (k : String) (v : ℚ)
    (h : (m.map Prod.fst).Nodup) : ((recordSet m k v).map Prod.fst).Nodup := by
  unfold recordSet
  split
  · have hkeys : (m.map (fun e => if e.1 = k then (k, v) else e)).map Prod.fst
        = m.map Prod.fst := by
      rw [List.map_map]
      apply List.map_congr_left
      intro e _
      by_cases he : e.1 = k
      · simp [he]
      · simp [he]
    rw [hkeys]
    exact h
  · rename_i hany
    have hk : k ∉ m.map Prod.fst := by
      intro hmem
      obtain ⟨e, he, hek⟩ := List.mem_map.mp hmem
      exact hany (List.any_eq_true.mpr ⟨e, he, by simpa using hek⟩)
    simp only [List.map_append, List.map_cons, List.map_nil]
    refine List.Nodup.append h (List.nodup_singleton k) ?_
    intro x hx hxk
    rw [List.mem_singleton] at hxk
    subst hxk
    exact hk hx

/-- The distribution object has duplicate-free keys. -/
theorem nodup_keys_typeDistribution (l : List AssetWithPrice) :
    ((typeDistribution l).map Prod.fst).Nodup := by
  unfold typeDistribution
  suffices h : ∀ (m : List (String × ℚ)), (m.map Prod.fst).Nodup →
      ((l.foldl (fun m a => recordSet m a.type (recordGetD m a.type + a.currentValue))
        m).map Prod.fst).Nodup by
    exact h [] (by simp)
  induction l with
  | nil => intro m hm; simpa using hm
  | cons a t ih =>
      intro m hm
      simp only [List.foldl_cons]
      exact ih _ (nodup_keys_recordSet m a.type _ hm)

/-- A key is in the distribution object iff some holding has that type. -/
theorem mem_keys_typeDistribution (l : List AssetWithPrice) (k : String) :
    k ∈ (typeDistribution l).map Prod.fst ↔ ∃ a ∈ l, a.type = k := by
  have hiso : k ∈ (typeDistribution l).map Prod.fst ↔
      ((typeDistribution l).lookup k).isSome := by
    rw [List.lookup_isSome_iff]
    constructor
    · intro hmem
      obtain ⟨e, he, hek⟩ := List.mem_map.mp hmem
      exact ⟨e, he, by simpa using hek.symm⟩
    · rintro ⟨e, he, hek⟩
      exact List.mem_map.mpr ⟨e, he, by simpa using (beq_iff_eq.mp hek).symm⟩
  rw [hiso, typeDistribution_lookup]
  by_cases h : ∃ a ∈ l, a.type = k
  · simp [h]
  · simp [h]

/-- `Object.keys(typeDistribution).length` counts exactly the distinct
asset types occurring among the holdings. -/
theorem length_typeDistribution (l : List AssetWithPrice) :
    (typeDistribution l).length = ((l.map (fun a => a.type)).dedup).length := by
  have h1 : (typeDistribution l).length = ((typeDistribution l).map Prod.fst).length :=
    (List.length_map _ _).symm
  have hperm : ((typeDistribution l).map Prod.fst).Perm ((l.map (fun a => a.type)).dedup) := by
    rw [List.perm_ext_iff_of_nodup (nodup_keys_typeDistribution l) (List.nodup_dedup _)]
    intro k
    rw [mem_keys_typeDistribution, List.mem_dedup, List.mem_map]
  rw [h1, hperm.length_eq]

/-!
## The stable descending sort
-/

theorem glpGE_trans : ∀ (a b c : AssetWithPrice),
    glpGE a b → glpGE b c → glpGE a c := by
  intro a b c hab hbc
  simp only [glpGE, decide_eq_true_eq] at *
  exact le_trans hbc hab

theorem glpGE_total : ∀ (a b : AssetWithPrice), glpGE a b || glpGE b a := by
  intro a b
  simp only [glpGE, Bool.or_eq_true, decide_eq_true_eq]
  exact le_total b.gainLossPercent a.gainLossPercent

theorem sortedByGLP_perm (l : List AssetWithPrice) : (sortedByGLP l).Perm l :=
  List.mergeSort_perm l glpGE

theorem sortedByGLP_pairwise (l : List AssetWithPrice) :
    (sortedByGLP l).Pairwise (fun a b => glpGE a b) :=
  List.sorted_mergeSort glpGE_trans glpGE_total l

theorem sortedByGLP_ne_nil {l : List AssetWithPrice} (h : l ≠ []) :
    sortedByGLP l ≠ [] := by
  intro hnil
  have hlen := (sortedByGLP_perm l).length_eq
  rw [hnil] at hlen
  exact h (List.length_eq_zero.mp hlen.symm)

/-- The head of the descending sort attains the maximum `gainLossPercent`. -/
theorem head_sortedByGLP (l : List AssetWithPrice) (h : l ≠ []) :
    ∃ t rest, sortedByGLP l = t :: rest ∧ t ∈ l ∧
      ∀ x ∈ l, x.gainLossPercent ≤ t.gainLossPercent := by
  obtain ⟨t, rest, hout⟩ := List.exists_cons_of_ne_nil (sortedByGLP_ne_nil h)
  refine ⟨t, rest, hout, ?_, ?_⟩
  · exact (sortedByGLP_perm l).mem_iff.mp (by rw [hout]; exact List.mem_cons_self t rest)
  · intro x hx
    have hxout : x ∈ t :: rest := by
      rw [← hout]
      exact (sortedByGLP_perm l).mem_iff.mpr hx
    rcases List.mem_cons.mp hxout with rfl | hx'
    · exact le_refl _
    · have hp := sortedByGLP_pairwise l
      rw [hout] at hp
      have := (List.pairwise_cons.mp hp).1 x hx'
      simpa [glpGE] using this

/-- The last element of the descending sort attains the minimum
`gainLossPercent`. -/
theorem last_sortedByGLP (l : List AssetWithPrice) (h : l ≠ []) :
    ∃ w ys, sortedByGLP l = ys ++ [w] ∧ w ∈ l ∧
      ∀ x ∈ l, w.gainLossPercent ≤ x.gainLossPercent := by
  have hne : (sortedByGLP l).reverse ≠ [] := by
    simpa using sortedByGLP_ne_nil h
  obtain ⟨w, ys', hrev⟩ := List.exists_cons_of_ne_nil hne
  have hout : sortedByGLP l = ys'.reverse ++ [w] := by
    have h2 := congrArg List.reverse hrev
    simpa using h2
  refine ⟨w, ys'.reverse, hout, ?_, ?_⟩
  · exact (sortedByGLP_perm l).mem_iff.mp
      (by rw [hout]; exact List.mem_append_right _ (List.mem_singleton_self w))
  · intro x hx
    have hxrev : x ∈ w :: ys' := by
      rw [← hrev, List.mem_reverse]
      exact (sortedByGLP_perm l).mem_iff.mpr hx
    rcases List.mem_cons.mp hxrev with rfl | hx'
    · exact le_refl _
    · have hp := sortedByGLP_pairwise l
      have hprev : ((sortedByGLP l).reverse).Pairwise (fun a b => glpGE b a) :=
        List.pairwise_reverse.mpr hp
      rw [hrev] at hprev

      have := (List.pairwise_cons.mp hprev).1 x hx'
      simpa [glpGE] using this

/-- Any list with an element satisfying `P` splits at the first such
element. -/
theorem first_split {α : Type} (P : α → Prop) [DecidablePred P] :
    ∀ (l : List α), (∃ x ∈ l, P x) →
      ∃ e pre post, l = pre ++ e :: post ∧ P e ∧ ∀ x ∈ pre, ¬ P x := by
  intro l
  induction l with
  | nil => rintro ⟨x, hx, _⟩; simp at hx
  | cons a t ih =>
      intro hex
      by_cases ha : P a
      · exact ⟨a, [], t, by simp, ha, by simp⟩
      · have hex' : ∃ x ∈ t, P x := by
          obtain ⟨x, hx, hPx⟩ := hex
          rcases List.mem_cons.mp hx with rfl | hx'
          · exact absurd hPx ha
          · exact ⟨x, hx', hPx⟩
        obtain ⟨e, pre, post, hsplit, hPe, hpre⟩ := ih hex'
        refine ⟨e, a :: pre, post, by simp [hsplit], hPe, ?_⟩
        intro x hx
        rcases List.mem_cons.mp hx with rfl | hx'
        · exact ha
        · exact hpre x hx'

/-- Stability at the top: the head of the stable descending sort is the
first holding, in snapshot order, attaining the maximal `gainLossPercent`. -/
theorem head_sortedByGLP_first (l : List AssetWithPrice) (h : l ≠ []) :
    ∃ t pre post, (sortedByGLP l).head? = some t ∧ l = pre ++ t :: post ∧
      (∀ x ∈ l, x.gainLossPercent ≤ t.gainLossPercent) ∧
      (∀ x ∈ pre, x.gainLossPercent < t.gainLossPercent) := by
  obtain ⟨t, rest, hout, htl, hmax⟩ := head_sortedByGLP l h
  obtain ⟨e, pre, post, hsplit, hPe, hpre⟩ :=
    first_split (fun x => x.gainLossPercent = t.gainLossPercent) l ⟨t, htl, rfl⟩
  have he : e = t := by
    by_contra hne
    have htpre : t ∉ pre := fun hmem => hpre t hmem rfl
    have hbet : (e == t) = false := beq_eq_false_iff_ne.mpr hne
    have hcl : l.count t = post.count t := by
      rw [hsplit, List.count_append, List.count_eq_zero.mpr htpre, List.count_cons,
        hbet]
      simp
    have hrep : List.Sublist (List.replicate (l.count t) t) post :=
      List.le_count_iff_replicate_sublist.mp (le_of_eq hcl)
    have hsub_l : List.Sublist (e :: List.replicate (l.count t) t) l := by
      have h2 : List.Sublist (e :: List.replicate (l.count t) t) (pre ++ e :: post) :=
        (List.Sublist.cons₂ e hrep).trans (List.sublist_append_right pre (e :: post))
      rw [← hsplit] at h2
      exact h2
    have hpw : (e :: List.replicate (l.count t) t).Pairwise (fun a b => glpGE a b) := by
      rw [List.pairwise_cons]
      refine ⟨?_, ?_⟩
      · intro x hx
        rw [List.mem_replicate] at hx
        rw [hx.2]
        simp [glpGE, hPe]
      · rw [List.pairwise_replicate]
        right
        simp [glpGE]
    have hsorted : List.Sublist (e :: List.replicate (l.count t) t) (sortedByGLP l) :=
      List.sublist_mergeSort glpGE_trans glpGE_total hpw hsub_l
    rw [hout] at hsorted
    have hsub_rest : List.Sublist (e :: List.replicate (l.count t) t) rest := by
      cases hsorted with
      | cons _ hsub => exact hsub
      | cons₂ _ hsub => exact absurd rfl hne
    have hcount_rest : l.count t ≤ rest.count t := by
      have h1 : List.Sublist (List.replicate (l.count t) t) rest :=
        (List.sublist_cons_self e _).trans hsub_rest
      simpa using h1.count_le t
    have hfinal : (sortedByGLP l).count t = l.count t := (sortedByGLP_perm l).count_eq t
    rw [hout, List.count_cons_self] at hfinal
    omega
  subst he
  refine ⟨e, pre, post, by rw [hout]; rfl, hsplit, hmax, ?_⟩
  intro x hx
  have hxl : x ∈ l := by
    rw [hsplit]
    exact List.mem_append_left _ hx
  exact lt_of_le_of_ne (hmax x hxl) (hpre x hx)

/-- Stability at the bottom: the last element of the stable descending
sort is the last holding, in snapshot order, attaining the minimal
`gainLossPercent`. -/
theorem last_sortedByGLP_last (l : List AssetWithPrice) (h : l ≠ []) :
    ∃ w pre post, (sortedByGLP l).getLast? = some w ∧ l = pre ++ w :: post ∧
      (∀ x ∈ l, w.gainLossPercent ≤ x.gainLossPercent) ∧
      (∀ x ∈ post, w.gainLossPercent < x.gainLossPercent) := by
  obtain ⟨w, ys, hout, hwl, hmin⟩ := last_sortedByGLP l h
  have hwrev : w ∈ l.reverse := List.mem_reverse.mpr hwl
  obtain ⟨e, pre', post', hsplit', hPe, hpre'⟩ :=
    first_split (fun x => x.gainLossPercent = w.gainLossPercent) l.reverse ⟨w, hwrev, rfl⟩
  have hsplit : l = post'.reverse ++ e :: pre'.reverse := by
    have h2 := congrArg List.reverse hsplit'
    simpa using h2
  have he : e = w := by
    by_contra hne
    have hwpre' : w ∉ pre' := fun hmem => hpre' w hmem rfl
    have hbet : (e == w) = false := beq_eq_false_iff_ne.mpr hne
    have hcl : l.count w = post'.count w := by
      conv_lhs => rw [← List.count_reverse, hsplit', List.count_append,
        List.count_eq_zero.mpr hwpre', List.count_cons, hbet]
      simp
    have hrep : List.Sublist (List.replicate (l.count w) w) post' :=
      List.le_count_iff_replicate_sublist.mp (le_of_eq hcl)
    have hsub_l : List.Sublist (List.replicate (l.count w) w ++ [e]) l := by
      have h2 : List.Sublist (List.replicate (l.count w) w ++ [e])
          (post'.reverse ++ e :: pre'.reverse) := by
        apply List.Sublist.append
        · have hr := hrep.reverse
          simpa using hr
        · exact List.Sublist.cons₂ e (List.nil_sublist _)
      rw [← hsplit] at h2
      exact h2
    have hpw : (List.replicate (l.count w) w ++ [e]).Pairwise (fun a b => glpGE a b) := by
      rw [List.pairwise_append]
      refine ⟨?_, List.pairwise_singleton _ _, ?_⟩
      · rw [List.pairwise_replicate]
        right
        simp [glpGE]
      · intro a ha b hb
        rw [List.mem_replicate] at ha
        rw [List.mem_singleton] at hb
        rw [ha.2, hb]
        simp [glpGE, hPe]
    have hsorted : List.Sublist (List.replicate (l.count w) w ++ [e]) (sortedByGLP l) :=
      List.sublist_mergeSort glpGE_trans glpGE_total hpw hsub_l
    have hsorted_rev : List.Sublist (e :: List.replicate (l.count w) w) ((sortedByGLP l).reverse) := by
      have hr := hsorted.reverse
      simpa using hr
    rw [hout] at hsorted_rev
    have hrev_eq : (ys ++ [w]).reverse = w :: ys.reverse := by simp
    rw [hrev_eq] at hsorted_rev
    have hsub_ys : List.Sublist (e :: List.replicate (l.count w) w) ys.reverse := by
      cases hsorted_rev with
      | cons _ hsub => exact hsub
      | cons₂ _ hsub => exact absurd rfl hne
    have hcount_ys : l.count w ≤ ys.count w := by
      have h1 : List.Sublist (List.replicate (l.count w) w) ys.reverse :=
        (List.sublist_cons_self e _).trans hsub_ys
      have h2 := h1.count_le w
      simpa using h2
    have hfinal : (sortedByGLP l).count w = l.count w := (sortedByGLP_perm l).count_eq w
    rw [hout, List.count_append] at hfinal
    simp at hfinal
    omega
  subst he
  refine ⟨e, post'.reverse, pre'.reverse, by rw [hout]; exact List.getLast?_concat _,
    hsplit, hmin, ?_⟩
  intro x hx
  have hx' : x ∈ pre' := List.mem_reverse.mp hx
  have hxl : x ∈ l := by
    rw [hsplit]
    exact List.mem_append_right _ (List.mem_cons_of_mem _ hx)
  exact lt_of_le_of_ne (hmin x hxl) (fun hh => hpre' x hx' hh.symm)

/-!
## Scores at finite concentrations
-/

/-- With a finite concentration the risk score is the clamped formula. -/
theorem riskScore_fin (p : PortfolioValue) (c : ℚ)
    (hc : concentration p = JSNum.fin c) :
    riskScore p = JSNum.fin (min 100 (volatility p.assets * 5 + (c : ℝ) * 50)) := by
  unfold riskScore
  rw [hc]
  rfl

/-- With a finite concentration the diversification score is the clamped
formula. -/
theorem diversificationScore_fin (p : PortfolioValue) (c : ℚ)
    (hc : concentration p = JSNum.fin c) :
    diversificationScore p =
      JSNum.fin (min 100 ((numTypes p : ℝ) * 20 + (1 - (c : ℝ)) * 30)) := by
  unfold diversificationScore
  rw [hc]
  rfl

/-- A nonzero `totalValue` yields the ordinary finite quotient. -/
theorem concentration_fin (p : PortfolioValue) (h : p.totalValue ≠ 0) :
    concentration p = JSNum.fin
      (mathMax ((typeDistribution p.assets).map Prod.snd) / p.totalValue) := by
  simp [concentration, JSNum.div, h]

/-- With duplicate-free keys, a member pair is what lookup returns. -/
theorem lookup_of_mem_nodup :
    ∀ (m : List (String × ℚ)) (k : String) (v : ℚ),
      (m.map Prod.fst).Nodup → (k, v) ∈ m → m.lookup k = some v := by
  intro m
  induction m with
  | nil => intro k v _ hm; simp at hm
  | cons e t ih =>
      intro k v hnd hm
      obtain ⟨ke, ve⟩ := e
      rcases List.mem_cons.mp hm with heq | hmt
      · rw [← heq]
        exact List.lookup_cons_self
      · have hnd' : (ke :: t.map Prod.fst).Nodup := by simpa using hnd
        have hket : ke ∉ t.map Prod.fst := (List.nodup_cons.mp hnd').1
        have hkne : k ≠ ke := by
          rintro rfl
          exact hket (List.mem_map.mpr ⟨(k, v), hmt, rfl⟩)
        have hb : (k == ke) = false := beq_eq_false_iff_ne.mpr hkne
        rw [List.lookup_cons]
        simp only [hb]
        exact ih k v (List.nodup_cons.mp hnd').2 hmt

/-- Per-type sums of nonnegative current values are nonnegative. -/
theorem sumType_nonneg (k : String) (l : List AssetWithPrice)
    (hcv : ∀ a ∈ l, 0 ≤ a.currentValue) : 0 ≤ sumType k l := by
  apply List.sum_nonneg
  intro x hx
  obtain ⟨a, ha, rfl⟩ := List.mem_map.mp hx
  exact hcv a (List.mem_of_mem_filter ha)

/-- Every value stored in the distribution object is a per-type sum, so
it is nonnegative when the current values are. -/
theorem typeDistribution_values_nonneg (l : List AssetWithPrice)
    (hcv : ∀ a ∈ l, 0 ≤ a.currentValue) :
    ∀ v ∈ (typeDistribution l).map Prod.snd, 0 ≤ v := by
  intro v hv
  obtain ⟨⟨k, v'⟩, hmem, hsnd⟩ := List.mem_map.mp hv
  have hlk := lookup_of_mem_nodup _ k v' (nodup_keys_typeDistribution l) hmem
  rw [typeDistribution_lookup] at hlk
  by_cases hocc : ∃ a ∈ l, a.type = k
  · rw [if_pos hocc] at hlk
    have : v' = sumType k l := by
      injection hlk.symm
    rw [← hsnd, this]
    exact sumType_nonneg k l hcv
  · rw [if_neg hocc] at hlk
    cases hlk

theorem le_foldl_max (b : ℚ) : ∀ (xs : List ℚ) (acc : ℚ), b ≤ acc →
    b ≤ xs.foldl max acc := by
  intro xs
  induction xs with
  | nil => intro acc h; simpa using h
  | cons x t ih =>
      intro acc h
      exact ih (max acc x) (le_trans h (le_max_left acc x))

/-- `Math.max` over a nonempty list of nonnegative values is nonnegative. -/
theorem mathMax_nonneg (lv : List ℚ) (hne : lv ≠ []) (h : ∀ v ∈ lv, 0 ≤ v) :
    0 ≤ mathMax lv := by
  cases lv with
  | nil => exact absurd rfl hne
  | cons x xs =>
      exact le_foldl_max 0 xs x (h x (List.mem_cons_self x xs))

/-- A nonempty snapshot yields a nonempty distribution object. -/
theorem typeDistribution_ne_nil (l : List AssetWithPrice) (h : l ≠ []) :
    (typeDistribution l).map Prod.snd ≠ [] := by
  intro hnil
  have h0 : (typeDistribution l).length = 0 := by
    have := congrArg List.length hnil
    simpa using this
  rw [length_typeDistribution] at h0
  have h1 : (l.map (fun a => a.type)).dedup = [] := List.length_eq_zero.mp h0
  obtain ⟨a, ha⟩ := List.exists_mem_of_ne_nil l h
  have h2 : a.type ∈ (l.map (fun a => a.type)).dedup :=
    List.mem_dedup.mpr (List.mem_map.mpr ⟨a, ha, rfl⟩)
  rw [h1] at h2
  simp at h2

/-!
## Unfolding the engine on a nonempty snapshot
-/

theorem analytics_pos (p : PortfolioValue) (h : p.assets ≠ []) :
    analytics p =
      { topPerformer := (sortedByGLP p.assets).head?
        worstPerformer := (sortedByGLP p.assets).getLast?
        avgReturn := avgReturn p.assets
        volatility := volatility p.assets
        typeDistribution := typeDistribution p.assets
        riskScore := riskScore p
        diversificationScore := diversificationScore p
        totalAssets := p.assets.length
        totalGainers := (p.assets.filter (fun a => decide (0 < a.gainLoss))).length
        totalLosers := (p.assets.filter (fun a => decide (a.gainLoss < 0))).length } := by
  unfold analytics
  rw [if_neg h]

/-- A `NaN` concentration poisons the risk score. -/
theorem riskScore_nan (p : PortfolioValue) (hc : concentration p = JSNum.nan) :
    riskScore p = JSNum.nan := by
  unfold riskScore
  rw [hc]
  rfl

/-- A `NaN` concentration poisons the diversification score. -/
theorem diversificationScore_nan (p : PortfolioValue)
    (hc : concentration p = JSNum.nan) : diversificationScore p = JSNum.nan := by
  unfold diversificationScore
  rw [hc]
  rfl

/-!
## Claims
-/

/-- C4: on an empty holdings collection the engine returns exactly the
zero/null analytics record: no performers, zero statistics, empty
distribution, zero counts. -/
theorem claim_C4_empty_analytics (p : PortfolioValue) (h : p.assets = []) :
    (analytics p).topPerformer = none ∧ (analytics p).worstPerformer = none ∧
    (analytics p).avgReturn = 0 ∧ (analytics p).volatility = 0 ∧
    (analytics p).typeDistribution = [] ∧
    (analytics p).riskScore = JSNum.fin 0 ∧
    (analytics p).diversificationScore = JSNum.fin 0 ∧
    (analytics p).totalAssets = 0 ∧ (analytics p).totalGainers = 0 ∧
    (analytics p).totalLosers = 0 := by
  simp [analytics, h, emptyAnalytics]

/-- Witness for C4 at the concrete empty snapshot. -/
theorem claim_C4_witness :
    emptySnap.assets = [] ∧ (analytics emptySnap).topPerformer = none ∧
      (analytics emptySnap).totalAssets = 0 :=
  ⟨rfl, (claim_C4_empty_analytics emptySnap rfl).1,
    (claim_C4_empty_analytics emptySnap rfl).2.2.2.2.2.2.2.1⟩

/-- C8: `totalGainers` counts the holdings with strictly positive
`gainLoss`, `totalLosers` those with strictly negative `gainLoss`, and
together with the flat holdings they exhaust the collection, so a
`gainLoss` of exactly `0` is counted as neither. -/
theorem claim_C8_gainers_losers (p : PortfolioValue) :
    (analytics p).totalGainers = p.assets.countP (fun a => decide (0 < a.gainLoss)) ∧
    (analytics p).totalLosers = p.assets.countP (fun a => decide (a.gainLoss < 0)) ∧
    (analytics p).totalGainers + (analytics p).totalLosers
        + p.assets.countP (fun a => decide (a.gainLoss = 0))
      = (analytics p).totalAssets := by
  by_cases h : p.assets = []
  · simp [analytics, h, emptyAnalytics]
  · rw [analytics_pos p h]
    refine ⟨(List.countP_eq_length_filter _ _).symm,
      (List.countP_eq_length_filter _ _).symm, ?_⟩
    simp only [List.countP_eq_length_filter]
    have := countP_trichotomy p.assets
    simp only [List.countP_eq_length_filter] at this
    exact this

/-- C9: the computation never mutates the caller's assets array — the
in-place sort happens on the array allocated by the spread copy, which
ends up holding the sorted data while the caller's array is unchanged. -/
theorem claim_C9_frame (p : PortfolioValue) :
    (analyticsRun p).2 callerId = p.assets ∧
    (analyticsRun p).2 copyId = sortedByGLP p.assets := by
  refine ⟨run_preserves_caller p, ?_⟩
  simp [analyticsRun, Store.write, callerId, copyId, sortedByGLP]

/-- C10: the engine is pure and deterministic — running it a second time
on the snapshot left behind by the first run gives the identical result,
and both equal the pure function of the input. -/
theorem claim_C10_pure (p : PortfolioValue) :
    (analyticsTwice p).1 = (analyticsTwice p).2 ∧
    (analyticsTwice p).1 = analytics p := by
  have h1 : (analyticsRun p).1 = analytics p := run_fst_eq_analytics p
  have h2 := run_fst_eq_analytics { p with assets := (analyticsRun p).2 callerId }
  constructor
  · show (analyticsRun p).1
      = (analyticsRun { p with assets := (analyticsRun p).2 callerId }).1
    rw [h1, h2, run_preserves_caller p]
  · exact h1

/-- C5: `avgReturn` is the unweighted arithmetic mean of the holdings'
`gainLossPercent`, and `volatility` is the population standard deviation:
the nonnegative real whose square is the mean of the squared deviations
from `avgReturn`, dividing by the count (not count − 1). -/
theorem claim_C5_mean_volatility (p : PortfolioValue) (h : p.assets ≠ []) :
    (analytics p).avgReturn
        = (p.assets.map (fun a => a.gainLossPercent)).sum / p.assets.length ∧
    0 ≤ (analytics p).volatility ∧
    ((analytics p).volatility) ^ 2 =
      (((p.assets.map (fun a =>
          (a.gainLossPercent - (analytics p).avgReturn) ^ 2)).sum
        / p.assets.length : ℚ) : ℝ) := by
  rw [analytics_pos p h]
  dsimp only
  refine ⟨avgReturn_eq_mean p.assets, volatility_nonneg p.assets, ?_⟩
  rw [volatility_sq, variance_eq_mean_sq]

/-- Witness for C5 at a concrete three-holding snapshot. -/
theorem claim_C5_witness :
    snapC5.assets ≠ [] ∧
    ((analytics snapC5).avgReturn
        = (snapC5.assets.map (fun a => a.gainLossPercent)).sum / snapC5.assets.length ∧
      0 ≤ (analytics snapC5).volatility ∧
      ((analytics snapC5).volatility) ^ 2 =
        (((snapC5.assets.map (fun a =>
            (a.gainLossPercent - (analytics snapC5).avgReturn) ^ 2)).sum
          / snapC5.assets.length : ℚ) : ℝ)) :=
  ⟨by simp [snapC5, mkSnap], claim_C5_mean_volatility snapC5 (by simp [snapC5, mkSnap])⟩

/-- C6 (amended): when the concentration is an ordinary finite number and
nonnegative — which holds whenever `totalValue > 0` and the current
values are nonnegative, and fails for the degenerate `totalValue = 0`
snapshot, where the score is `NaN` — the risk score is the clamped
formula `min(100, volatility·5 + concentration·50)` and lies in
`[0, 100]`. -/
theorem claim_C6_riskScore (p : PortfolioValue) (h : p.assets ≠ [])
    (hv : 0 < p.totalValue) (hcv : ∀ a ∈ p.assets, 0 ≤ a.currentValue) :
    ∃ (c : ℚ) (r : ℝ), concentration p = JSNum.fin c ∧ 0 ≤ c ∧
      (analytics p).riskScore = JSNum.fin r ∧
      r = min 100 (volatility p.assets * 5 + (c : ℝ) * 50) ∧
      0 ≤ r ∧ r ≤ 100 := by
  have hc := concentration_fin p (ne_of_gt hv)
  have hc0 : 0 ≤ mathMax ((typeDistribution p.assets).map Prod.snd) / p.totalValue :=
    div_nonneg
      (mathMax_nonneg _ (typeDistribution_ne_nil p.assets h)
        (typeDistribution_values_nonneg p.assets hcv))
      (le_of_lt hv)
  refine ⟨_, _, hc, hc0, ?_, rfl, ?_, min_le_left _ _⟩
  · rw [analytics_pos p h]
    dsimp only
    exact riskScore_fin p _ hc
  · apply le_min (by norm_num)
    apply add_nonneg
    · exact mul_nonneg (volatility_nonneg p.assets) (by norm_num)
    · apply mul_nonneg _ (by norm_num)
      exact_mod_cast hc0

/-- Witness for C6 at a concrete single-holding snapshot. -/
theorem claim_C6_witness :
    snapC6.assets ≠ [] ∧ 0 < snapC6.totalValue ∧
    (∀ a ∈ snapC6.assets, 0 ≤ a.currentValue) ∧
    (∃ (c : ℚ) (r : ℝ), concentration snapC6 = JSNum.fin c ∧ 0 ≤ c ∧
      (analytics snapC6).riskScore = JSNum.fin r ∧
      r = min 100 (volatility snapC6.assets * 5 + (c : ℝ) * 50) ∧
      0 ≤ r ∧ r ≤ 100) :=
  ⟨by simp [snapC6, mkSnap], by decide, by decide,
    claim_C6_riskScore snapC6 (by simp [snapC6, mkSnap]) (by decide) (by decide)⟩

/-- C7: whenever the concentration is a finite number at most `1`, the
diversification score is the clamped formula
`min(100, numDistinctTypes·20 + (1 − concentration)·30)` — with
`numDistinctTypes` the number of distinct asset types occurring among
the holdings — and lies in `[0, 100]`. -/
theorem claim_C7_diversification (p : PortfolioValue) (h : p.assets ≠ [])
    (c : ℚ) (hc : concentration p = JSNum.fin c) (hc1 : c ≤ 1) :
    ∃ d : ℝ, (analytics p).diversificationScore = JSNum.fin d ∧
      d = min 100 ((((p.assets.map (fun a => a.type)).dedup.length : ℝ)) * 20
        + (1 - (c : ℝ)) * 30) ∧
      0 ≤ d ∧ d ≤ 100 := by
  have hd := diversificationScore_fin p c hc
  have hnum : numTypes p = (p.assets.map (fun a => a.type)).dedup.length := by
    unfold numTypes
    exact length_typeDistribution p.assets
  refine ⟨_, ?_, rfl, ?_, min_le_left _ _⟩
  · rw [analytics_pos p h]
    dsimp only
    rw [hd, hnum]
  · apply le_min (by norm_num)
    apply add_nonneg
    · positivity
    · apply mul_nonneg _ (by norm_num)
      have hc1' : (c : ℝ) ≤ 1 := by exact_mod_cast hc1
      linarith

/-- Witness for C7 at a concrete single-holding snapshot. -/
theorem claim_C7_witness :
    snapC7.assets ≠ [] ∧ concentration snapC7 = JSNum.fin (50 / 50) ∧
    ((50 : ℚ) / 50) ≤ 1 ∧
    (∃ d : ℝ, (analytics snapC7).diversificationScore = JSNum.fin d ∧
      d = min 100 ((((snapC7.assets.map (fun a => a.type)).dedup.length : ℝ)) * 20
        + (1 - ((50 : ℚ)/50 : ℚ) : ℝ) * 30) ∧
      0 ≤ d ∧ d ≤ 100) :=
  ⟨by simp [snapC7, mkSnap],
    by simp [concentration, snapC7, mkSnap, mkAsset, typeDistribution, recordSet,
      recordGetD, mathMax, JSNum.div],
    by simp,
    claim_C7_diversification snapC7 (by simp [snapC7, mkSnap]) (50 / 50)
      (by simp [concentration, snapC7, mkSnap, mkAsset, typeDistribution, recordSet,
        recordGetD, mathMax, JSNum.div])
      (by simp)⟩

/-- C1: at the valid degenerate snapshot with `totalValue = 0` (one
worthless holding) the code computes `0 / 0`, so the concentration is
`NaN` — not the `0` the specification requires — and both scores are
`NaN` rather than well-defined numbers. -/
theorem claim_C1_zero_totalValue_bug :
    concentration zeroValueSnap = JSNum.nan ∧
    (analytics zeroValueSnap).riskScore = JSNum.nan ∧
    (analytics zeroValueSnap).diversificationScore = JSNum.nan := by
  have hne : zeroValueSnap.assets ≠ [] := by simp [zeroValueSnap, mkSnap]
  have hc : concentration zeroValueSnap = JSNum.nan := by
    simp [concentration, zeroValueSnap, mkSnap, mkAsset, typeDistribution, recordSet,
      recordGetD, mathMax, JSNum.div]
  refine ⟨hc, ?_, ?_⟩
  · rw [analytics_pos _ hne]
    dsimp only
    exact riskScore_nan _ hc
  · rw [analytics_pos _ hne]
    dsimp only
    exact diversificationScore_nan _ hc

/-- C3 (amended): the distribution object binds exactly the asset types
occurring among the holdings, each to the summed `currentValue` of that
type — a type whose holdings sum to `0` is present with value `0`, and
only never-occurring types are absent. -/
theorem claim_C3_typeDistribution (p : PortfolioValue) (h : p.assets ≠ [])
    (k : String) :
    (analytics p).typeDistribution.lookup k =
      if ∃ a ∈ p.assets, a.type = k then some (sumType k p.assets) else none := by
  rw [analytics_pos p h]
  dsimp only
  exact typeDistribution_lookup p.assets k

/-- Counterexample to C3 as stated: a `BOND` holding with `currentValue
= 0` makes the `BOND` type sum to `0`, yet the key is present in the
mapping with value `0` rather than absent. -/
theorem claim_C3_counterexample :
    (∃ a ∈ snapC3.assets, a.type = "BOND") ∧ sumType "BOND" snapC3.assets = 0 ∧
    (analytics snapC3).typeDistribution.lookup "BOND" = some 0 := by
  have hmem : ∃ a ∈ snapC3.assets, a.type = "BOND" :=
    ⟨mkAsset "BOND" 0 0 0, by simp [snapC3, mkSnap], rfl⟩
  have hne : snapC3.assets ≠ [] := by simp [snapC3, mkSnap]
  refine ⟨hmem, ?_, ?_⟩
  · simp [sumType, snapC3, mkSnap, mkAsset]
  · rw [analytics_pos _ hne]
    dsimp only
    rw [typeDistribution_lookup, if_pos hmem]
    simp [sumType, snapC3, mkSnap, mkAsset]

/-- Witness for C3 (amended) at the concrete snapshot, key `"BOND"`. -/
theorem claim_C3_witness :
    snapC3.assets ≠ [] ∧
    (analytics snapC3).typeDistribution.lookup "BOND" =
      (if ∃ a ∈ snapC3.assets, a.type = "BOND" then some (sumType "BOND" snapC3.assets)
        else none) :=
  ⟨by simp [snapC3, mkSnap],
    claim_C3_typeDistribution snapC3 (by simp [snapC3, mkSnap]) "BOND"⟩

/-- C2 (amended): `topPerformer` is the first holding, in snapshot order,
attaining the maximal `gainLossPercent`; `worstPerformer` is the last
holding attaining the minimal one (the tail of the stable descending
sort keeps the later of two tied minimal holdings). -/
theorem claim_C2_performers (p : PortfolioValue) (h : p.assets ≠ []) :
    ∃ t w, (analytics p).topPerformer = some t ∧
      (analytics p).worstPerformer = some w ∧
      (∃ pre post, p.assets = pre ++ t :: post ∧
        (∀ x ∈ p.assets, x.gainLossPercent ≤ t.gainLossPercent) ∧
        ∀ x ∈ pre, x.gainLossPercent < t.gainLossPercent) ∧
      (∃ pre post, p.assets = pre ++ w :: post ∧
        (∀ x ∈ p.assets, w.gainLossPercent ≤ x.gainLossPercent) ∧
        ∀ x ∈ post, w.gainLossPercent < x.gainLossPercent) := by
  obtain ⟨t, pre1, post1, hh, hs1, hmax, hpre⟩ := head_sortedByGLP_first p.assets h
  obtain ⟨w, pre2, post2, hl, hs2, hmin, hpost⟩ := last_sortedByGLP_last p.assets h
  rw [analytics_pos p h]
  dsimp only
  exact ⟨t, w, hh, hl, ⟨pre1, post1, hs1, hmax, hpre⟩, ⟨pre2, post2, hs2, hmin, hpost⟩⟩

/-- Witness for C2 (amended) at a concrete three-holding snapshot. -/
theorem claim_C2_witness :
    snapC2.assets ≠ [] ∧
    (∃ t w, (analytics snapC2).topPerformer = some t ∧
      (analytics snapC2).worstPerformer = some w ∧
      (∃ pre post, snapC2.assets = pre ++ t :: post ∧
        (∀ x ∈ snapC2.assets, x.gainLossPercent ≤ t.gainLossPercent) ∧
        ∀ x ∈ pre, x.gainLossPercent < t.gainLossPercent) ∧
      (∃ pre post, snapC2.assets = pre ++ w :: post ∧
        (∀ x ∈ snapC2.assets, w.gainLossPercent ≤ x.gainLossPercent) ∧
        ∀ x ∈ post, w.gainLossPercent < x.gainLossPercent)) :=
  ⟨by simp [snapC2, mkSnap], claim_C2_performers snapC2 (by simp [snapC2, mkSnap])⟩

/-- Counterexample to C2 as stated: two holdings tied on
`gainLossPercent`; the first-occurrence tie-break would make the first
one the worst performer, but the code returns the second. -/
theorem claim_C2_counterexample :
    tieSnap.assets = [tieA, tieB] ∧
    tieA.gainLossPercent = tieB.gainLossPercent ∧ tieA ≠ tieB ∧
    (analytics tieSnap).worstPerformer = some tieB := by
  have hne : tieSnap.assets ≠ [] := by simp [tieSnap, mkSnap]
  refine ⟨rfl, rfl, by simp [tieA, tieB, mkAsset], ?_⟩
  rw [analytics_pos _ hne]
  dsimp only
  obtain ⟨w, pre, post, hl, hsplit, hmin, hpost⟩ := last_sortedByGLP_last tieSnap.assets hne
  rw [hl]
  have hassets : tieSnap.assets = [tieA, tieB] := rfl
  rw [hassets] at hsplit
  have hw : w = tieB := by
    cases pre with
    | nil =>
        simp only [List.nil_append, List.cons.injEq] at hsplit
        obtain ⟨rfl, hpost'⟩ := hsplit
        have hmemB : tieB ∈ post := by rw [← hpost']; exact List.mem_cons_self _ _
        have := hpost tieB hmemB
        simp [tieA, tieB, mkAsset] at this
    | cons a pre' =>
        cases pre' with
        | nil =>
            simp only [List.cons_append, List.nil_append, List.cons.injEq] at hsplit
            obtain ⟨-, rfl, -⟩ := hsplit
            rfl
        | cons b pre'' =>
            have hlen := congrArg List.length hsplit
            simp [List.length_append] at hlen
  rw [hw]

/-- Counterexample to C6 as stated: at the valid degenerate snapshot with
`totalValue = 0` the holdings collection is nonempty, yet the risk score
is `NaN` — not a number in `[0, 100]`. -/
theorem claim_C6_counterexample :
    zeroValueSnap'.assets ≠ [] ∧ (analytics zeroValueSnap').riskScore = JSNum.nan := by
  have hne : zeroValueSnap'.assets ≠ [] := by simp [zeroValueSnap', mkSnap]
  have hc : concentration zeroValueSnap' = JSNum.nan := by
    simp [concentration, zeroValueSnap', mkSnap, mkAsset, typeDistribution, recordSet,
      recordGetD, mathMax, JSNum.div]
  refine ⟨hne, ?_⟩
  rw [analytics_pos _ hne]
  dsimp only
  exact riskScore_nan _ hc
